import Mathlib

/-!
Verification of the golang-academy-tcp key-value store.

The Go sources are shallowly embedded: byte strings become `List Nat`
(one element per byte), `strconv.Atoi` / `strconv.Itoa` become `atoi` /
`itoa`, Go slice expressions become `goSlice` (returning `none` where Go
would panic with a bounds error), and each function of
`pkg/server/parser.go`, `pkg/server/handler.go` and `pkg/kvstore` is
translated into a Lean function of the same name.  Concurrency is
embedded by making each actor loop a pure function of the messages it
receives (the store actor, the peer relay, the fan-in loop of
`performCommand`, and the per-connection handler loop).
-/

set_option maxRecDepth 10000

namespace TcpKv

/-- A Go byte string: one `Nat` per byte. -/
abbrev GoStr := List Nat

/-- Byte string of an ASCII string literal (each char is one byte). -/
def goStr (s : String) : GoStr := s.data.map Char.toNat

/-- Is the byte an ASCII decimal digit (as in Go, bytes between 0x30 and 0x39)? -/
def isDigitByte (c : Nat) : Bool := 48 ≤ c && c ≤ 57

/-- Value of a big-endian ASCII digit string, as folded up by `strconv.Atoi`. -/
def digitsToNat (s : GoStr) : Nat := s.foldl (fun a c => 10 * a + (c - 48)) 0

/-- The digit-run part of `strconv.Atoi`: `none` unless the string is a
non-empty run of decimal digits, otherwise its value.  Overflow is not
modelled: every call site of the parser passes at most ten digits, well
within a 64-bit int. -/
def parseDigits (s : GoStr) : Option Nat :=
  if s ≠ [] && s.all isDigitByte then some (digitsToNat s) else none

/-- Embedding of Go `strconv.Atoi`: an optional single leading sign
followed by a non-empty digit run; everything else is an error (`none`). -/
def atoi (s : GoStr) : Option Int :=
  match s with
  | [] => none
  | c :: rest =>
    if c = 45 then (parseDigits rest).map (fun n => -(n : Int))
    else if c = 43 then (parseDigits rest).map (fun n => (n : Int))
    else (parseDigits (c :: rest)).map (fun n => (n : Int))

/-- Helper for `itoa`: peel decimal digits from the low end, consing
them onto the accumulator so the result is big-endian.  The first
argument is fuel; `n` itself is always enough fuel. -/
def itoaAux : Nat → Nat → GoStr → GoStr
  | 0, _, acc => acc
  | fuel + 1, n, acc => if n = 0 then acc else itoaAux fuel (n / 10) ((48 + n % 10) :: acc)

/-- Embedding of Go `strconv.Itoa` on natural numbers (all call sites
pass a `len(...)`, which is non-negative). -/
def itoa (n : Nat) : GoStr :=
  if n = 0 then [48] else itoaAux n n []

/-- Embedding of the Go slice expression `s[lo:hi]`: `none` models the
runtime panic `slice bounds out of range` when not `0 ≤ lo ≤ hi ≤ len(s)`. -/
def goSlice (s : GoStr) (lo hi : Int) : Option GoStr :=
  if 0 ≤ lo ∧ lo ≤ hi ∧ hi ≤ (s.length : Int) then
    some ((s.drop lo.toNat).take (hi - lo).toNat)
  else none

/-- Embedding of the Go slice expression `s[lo:]`. -/
def goSliceFrom (s : GoStr) (lo : Int) : Option GoStr :=
  goSlice s lo s.length

/-- Result of `parseArgument` in `pkg/server/parser.go`, which returns
`(argument, remaining, incomplete, err)`.  On the incomplete and error
outcomes Go returns the untouched input buffer together with the
corresponding flag, so the constructors carry no further data; `panics`
models a runtime panic escaping the function. -/
inductive ArgResult
  | complete (argument remaining : GoStr)
  | incomplete
  | invalid
  | panics
deriving DecidableEq, Repr

/-- Embedding of `parseArgument` (`pkg/server/parser.go`): a three part
argument: one digit giving the digit count of the length field, the
length field, then that many payload bytes. -/
def parseArgument (buffer : GoStr) : ArgResult :=
  if buffer.length < 3 then .incomplete
  else
    match goSlice buffer 0 1 with
    | none => .panics
    | some part1String =>
      match atoi part1String with
      | none => .invalid
      | some argumentSizeLength =>
        if (buffer.length : Int) < argumentSizeLength + 1 then .incomplete
        else
          match goSlice buffer 1 (argumentSizeLength + 1) with
          | none => .panics
          | some part2String =>
            match atoi part2String with
            | none => .invalid
            | some argumentSize =>
              if (buffer.length : Int) < argumentSize + argumentSizeLength + 1 then .incomplete
              else
                match goSlice buffer (argumentSizeLength + 1)
                        (argumentSizeLength + argumentSize + 1),
                      goSliceFrom buffer (argumentSizeLength + argumentSize + 1) with
                | some argument, some remaining => .complete argument remaining
                | _, _ => .panics

/-- Embedding of `formatArgument` (`pkg/server/parser.go`). -/
def formatArgument (input : GoStr) : GoStr :=
  itoa (itoa input.length).length ++ itoa input.length ++ input

/-- The Go `command` enumeration of `pkg/server/parser.go`. -/
inductive command
  | putCommand
  | getCommand
  | deleteCommand
  | closeCommand
deriving DecidableEq, Repr

/-- The Go `commandRequest` struct.  The field `originalText` is read by
`pkg/server/handler.go` (the relay forwards it verbatim to peers).
Modelled from the spec: its declaration is not in the `parser.go` under
`src/`; spec section 3 says commands "retain their original encoded text
(needed for verbatim replication to peers)". -/
structure commandRequest where
  command : command
  key : GoStr
  value : GoStr
  length : Int
  originalText : GoStr
deriving DecidableEq, Repr

/-- Result of `parseCommand`, which returns `(*commandRequest, error)`:
`complete` is a non-nil request, `incomplete` is `(nil, nil)`, `invalid`
is `(nil, err)`, and `panics` models an escaping runtime panic. -/
inductive CmdResult
  | complete (request : commandRequest)
  | incomplete
  | invalid
  | panics
deriving DecidableEq, Repr

/-- Does the result carry a parsed command? -/
def CmdResult.isComplete : CmdResult → Bool
  | .complete _ => true
  | _ => false

/-- Embedding of `parsePutCommand` (`pkg/server/parser.go`). -/
def parsePutCommand (buffer : GoStr) : CmdResult :=
  match goSliceFrom buffer 3 with
  | none => .panics
  | some tail =>
    match parseArgument tail with
    | .panics => .panics
    | .invalid => .invalid
    | .incomplete => .incomplete
    | .complete argument1 remaining =>
      match parseArgument remaining with
      | .panics => .panics
      | .invalid => .invalid
      | .incomplete => .incomplete
      | .complete argument2 _ => .complete ⟨.putCommand, argument1, argument2, 0, []⟩

/-- Embedding of `parseGetCommand` (`pkg/server/parser.go`). -/
def parseGetCommand (buffer : GoStr) : CmdResult :=
  match goSliceFrom buffer 3 with
  | none => .panics
  | some tail =>
    match parseArgument tail with
    | .panics => .panics
    | .incomplete => .incomplete
    | .invalid => .invalid
    | .complete argument1 remaining =>
      if remaining.length < 1 then .incomplete
      else
        match goSlice remaining 0 1 with
        | none => .panics
        | some variableLengthSizeStr =>
          match atoi variableLengthSizeStr with
          | none => .invalid
          | some variableLengthSize =>
            if variableLengthSize = 0 then
              .complete ⟨.getCommand, argument1, [], 0, []⟩
            else if (remaining.length : Int) < variableLengthSize + 1 then .incomplete
            else
              match goSlice remaining 1 (variableLengthSize + 1) with
              | none => .panics
              | some variableLengthStr =>
                match atoi variableLengthStr with
                | none => .invalid
                | some variableLength =>
                  .complete ⟨.getCommand, argument1, [], variableLength, []⟩

/-- Embedding of `parseDeleteCommand` (`pkg/server/parser.go`). -/
def parseDeleteCommand (buffer : GoStr) : CmdResult :=
  match goSliceFrom buffer 3 with
  | none => .panics
  | some tail =>
    match parseArgument tail with
    | .panics => .panics
    | .invalid => .invalid
    | .incomplete => .incomplete
    | .complete argument1 _ => .complete ⟨.deleteCommand, argument1, [], 0, []⟩

/-- Embedding of Go `strings.HasPrefix(s, px)`. -/
def hasPrefix (s px : GoStr) : Bool :=
  px.length ≤ s.length && s.take px.length == px

/-- Embedding of `parseCommand` (`pkg/server/parser.go`): dispatch on the
three byte command keyword; three or more unrecognised bytes are invalid,
anything shorter might still become a command. -/
def parseCommand (buffer : GoStr) : CmdResult :=
  if hasPrefix buffer (goStr "put") then parsePutCommand buffer
  else if hasPrefix buffer (goStr "get") then parseGetCommand buffer
  else if hasPrefix buffer (goStr "del") then parseDeleteCommand buffer
  else if hasPrefix buffer (goStr "bye") then .complete ⟨.closeCommand, [], [], 0, []⟩
  else if buffer.length > 2 then .invalid
  else .incomplete

/-! ## The key-value store (`pkg/kvstore`) -/

/-- The contents of the Go map `KVStore.data`, with its insertion
behaviour made explicit: keys are unique, overwriting keeps position,
fresh keys are appended. -/
abbrev StoreData := List (GoStr × GoStr)

/-- Embedding of the Go map read `value, present := store.data[key]`. -/
def goMapGet (data : StoreData) (key : GoStr) : GoStr × Bool :=
  match data.find? (fun p => p.1 == key) with
  | some p => (p.2, true)
  | none => ([], false)

/-- Embedding of the Go map update `store.data[key] = value`. -/
def goMapInsert : StoreData → GoStr → GoStr → StoreData
  | [], key, value => [(key, value)]
  | p :: rest, key, value =>
    if p.1 = key then (key, value) :: rest else p :: goMapInsert rest key value

/-- Embedding of the Go builtin `delete(store.data, key)` (a no-op when
the key is absent; with unique keys, removing the first match removes
the key). -/
def goMapDelete : StoreData → GoStr → StoreData
  | [], _ => []
  | p :: rest, key => if p.1 = key then rest else p :: goMapDelete rest key

/-- The Go `operation` enumeration of `pkg/kvstore`. -/
inductive operation
  | readOperation
  | writeOperation
  | deleteOperation
  | closeOperation
deriving DecidableEq, Repr

/-- The Go `operationRequest` struct, without its reply channel: the
reply channel is modelled by the optional `operationResponse` produced
by `handleStoreOperation`. -/
structure operationRequest where
  op : operation
  key : GoStr
  value : GoStr
deriving DecidableEq, Repr

/-- The Go `operationResponse` struct. -/
structure operationResponse where
  value : GoStr
  present : Bool
deriving DecidableEq, Repr

/-- The store actor: `running` while the goroutine of
`handleStoreOperations` is in its receive loop, `stopped` after that
goroutine has returned (the close case).  Once stopped there is no
receiver, so no later request is ever serviced. -/
inductive StoreState
  | running (data : StoreData)
  | stopped
deriving DecidableEq, Repr

/-- One iteration of the receive loop of `handleStoreOperations`
(`pkg/kvstore`): the new actor state and the response message sent back
on the request's reply channel (`none` when nothing is sent — the close
case returns from the goroutine without replying, and a stopped actor
never services a request at all). -/
def handleStoreOperation : StoreState → operationRequest → StoreState × Option operationResponse
  | .running data, request =>
    match request.op with
    | .readOperation =>
      let read := goMapGet data request.key
      (.running data, some ⟨read.1, read.2⟩)
    | .writeOperation =>
      (.running (goMapInsert data request.key request.value), some ⟨[], false⟩)
    | .deleteOperation =>
      (.running (goMapDelete data request.key), some ⟨[], false⟩)
    | .closeOperation => (.stopped, none)
  | .stopped, _ => (.stopped, none)

/-- The store actor applied to a whole sequence of requests, collecting
the response (or absence of one) for each request in order. -/
def storeActorRun : StoreState → List operationRequest → StoreState × List (Option operationResponse)
  | s, [] => (s, [])
  | s, request :: rest =>
    let step := handleStoreOperation s request
    let run := storeActorRun step.1 rest
    (run.1, step.2 :: run.2)

/-! ## The connection handler (`pkg/server/handler.go`) -/

/-- Embedding of `handleVariableLengthGet` (`pkg/server/handler.go`).
`kvstore.Read` is the store actor's read case, i.e. `goMapGet`.  The
result is `none` when the slice `value[:request.length]` would panic
(a negative `request.length` reaches that slice). -/
def handleVariableLengthGet (data : StoreData) (request : commandRequest) : Option GoStr :=
  let read := goMapGet data request.key
  if read.2 = false then some (goStr "nil")
  else if request.length = 0 ∨ (read.1.length : Int) < request.length then
    some (goStr "val" ++ formatArgument read.1)
  else
    (goSlice read.1 0 request.length).map (fun truncated => goStr "val" ++ formatArgument truncated)

/-- One iteration of the local-dispatch actor of
`initialiseLocalStoreHandler` (`pkg/server/handler.go`), acting on a
running store: the new store contents and the response sent on the
response channel.  `none` models a panic escaping from the get case. -/
def localDispatch (data : StoreData) (request : commandRequest) : Option (StoreData × GoStr) :=
  match request.command with
  | .putCommand => some (goMapInsert data request.key request.value, goStr "ack")
  | .getCommand => (handleVariableLengthGet data request).map (fun response => (data, response))
  | .deleteCommand => some (goMapDelete data request.key, goStr "ack")
  | .closeCommand => some (data, goStr "bye")

/-- A network operation performed by a peer relay on its peer link:
`reliableWrite` of a byte string, or `reliableRead` of exactly `count`
bytes. -/
inductive NetOp
  | write (data : GoStr)
  | read (count : Nat)
deriving DecidableEq, Repr

/-- What one iteration of a peer relay goroutine of
`initialiseReplicationHandler` (`pkg/server/handler.go`) does with the
command it received: the network operations on its peer link, how many
completions it signals on the shared acknowledgement channel, and
whether the goroutine then returns. -/
structure RelayEffect where
  netOps : List NetOp
  acksSignalled : Nat
  terminates : Bool
deriving DecidableEq, Repr

/-- Embedding of the loop body of a peer relay goroutine
(`initialiseReplicationHandler` in `pkg/server/handler.go`): put and
delete commands are forwarded verbatim (`request.originalText`) followed
by a read of exactly 3 acknowledgement bytes; every command is followed
by exactly one signal on the acknowledgement channel; a close command
makes the goroutine return. -/
def relayHandleRequest (request : commandRequest) : RelayEffect :=
  { netOps :=
      if request.command = .putCommand ∨ request.command = .deleteCommand then
        [NetOp.write request.originalText, NetOp.read 3]
      else []
    acksSignalled := 1
    terminates := request.command = .closeCommand }

/-- What the `select` statement of the fan-in loop in `performCommand`
(`pkg/server/handler.go`, lines 149-172) observes as ready in one
iteration: a peer acknowledgement, the authoritative response, the
deadline timer, or nothing (the `default` case).  Note that the loop
calls `time.After(commandTimeout)` afresh in every iteration, so the
timer channel the `select` polls was created immediately beforehand;
a just-created 500 ms timer channel is not ready, so in an execution
whose iterations run without a half-second stall between creating the
timer and polling it, `timerReady` never occurs. -/
inductive FanInEvent
  | ackReady
  | responseReady (response : GoStr)
  | timerReady
  | defaultStep
deriving DecidableEq, Repr

/-- Embedding of the fan-in loop of `performCommand`
(`pkg/server/handler.go`), driven by the finite schedule of what the
`select` observes in successive iterations.  `some r` means the loop
returned the response `r` within the schedule; `none` means the
schedule was exhausted with the loop still spinning. -/
def fanInLoop (numPeers : Nat) : List FanInEvent → Nat → GoStr → Option GoStr
  | [], _, _ => none
  | event :: rest, numAcks, response =>
    match event with
    | .ackReady => fanInLoop numPeers rest (numAcks + 1) response
    | .responseReady r => fanInLoop numPeers rest numAcks r
    | .timerReady => if response = [] then some (goStr "err") else some response
    | .defaultStep =>
      if numAcks = numPeers ∧ response ≠ [] then some response
      else fanInLoop numPeers rest numAcks response

/-- State of the `handle` loop (`pkg/server/handler.go`) for a
connection with no peers: the accumulation buffer, the contents of the
(running) local store, and whether the connection has been closed. -/
structure ConnState where
  buffer : GoStr
  store : StoreData
  closed : Bool
deriving DecidableEq, Repr

/-- One iteration of the `handle` loop (`pkg/server/handler.go`) for a
connection with no peers, upon reading one byte `b`: append to the
buffer, parse, and act on the outcome.  With no peers, `performCommand`
returns the local-dispatch response (zero acknowledgements are required,
so the fan-in default case exits as soon as the response arrives).  The
second component is the response written to the client, if any; the
whole result is `none` when a panic escapes. -/
def connStep (s : ConnState) (b : Nat) : Option (ConnState × Option GoStr) :=
  let buffer := s.buffer ++ [b]
  match parseCommand buffer with
  | .panics => none
  | .complete request =>
    match localDispatch s.store request with
    | none => none
    | some (store2, response) =>
      if response = goStr "bye" then some (⟨[], store2, true⟩, none)
      else if response = [] then some (⟨[], store2, false⟩, none)
      else some (⟨[], store2, false⟩, some response)
  | .incomplete => some (⟨buffer, s.store, s.closed⟩, none)
  | .invalid => some (⟨[], s.store, s.closed⟩, some (goStr "err"))

/-- The `handle` loop over a whole list of input bytes, collecting every
response written to the client; processing stops once the connection is
closed, and `none` means a panic escaped. -/
def runConn : ConnState → List Nat → Option (ConnState × List GoStr)
  | s, [] => some (s, [])
  | s, b :: rest =>
    if s.closed then some (s, [])
    else
      match connStep s b with
      | none => none
      | some (s2, out) =>
        match runConn s2 rest with
        | none => none
        | some (s3, outs) => some (s3, out.toList ++ outs)

/-! ## Decimal lemmas: `itoa` and `atoi` -/

theorem itoaAux_eq_digits (fuel : Nat) :
    ∀ n acc, n ≤ fuel →
      itoaAux fuel n acc = (Nat.digits 10 n).reverse.map (fun d => 48 + d) ++ acc := by
  induction fuel with
  | zero =>
    intro n acc hn
    interval_cases n
    simp [itoaAux]
  | succ fuel ih =>
    intro n acc hn
    by_cases h0 : n = 0
    · subst h0
      simp [itoaAux]
    · have hdiv : n / 10 ≤ fuel := by
        have := Nat.div_lt_self (Nat.pos_of_ne_zero h0) (by norm_num : 1 < 10)
        omega
      have hrec := ih (n / 10) ((48 + n % 10) :: acc) hdiv
      rw [itoaAux, if_neg h0, hrec, Nat.digits_def' (by norm_num : 1 < 10) (Nat.pos_of_ne_zero h0)]
      simp

theorem itoa_eq_digits (n : Nat) (h : n ≠ 0) :
    itoa n = (Nat.digits 10 n).reverse.map (fun d => 48 + d) := by
  rw [itoa, if_neg h, itoaAux_eq_digits n n [] le_rfl, List.append_nil]

theorem itoa_ne_nil (n : Nat) : itoa n ≠ [] := by
  by_cases h : n = 0
  · subst h; simp [itoa]
  · rw [itoa_eq_digits n h]
    simp [Nat.digits_ne_nil_iff_ne_zero.mpr h]

theorem itoa_length_pos (n : Nat) : 1 ≤ (itoa n).length :=
  List.length_pos.mpr (itoa_ne_nil n)

theorem itoa_length_le_nine (n : Nat) (h : n ≤ 999999999) : (itoa n).length ≤ 9 := by
  by_cases h0 : n = 0
  · subst h0; simp [itoa]
  · rw [itoa_eq_digits n h0]
    simp only [List.length_map, List.length_reverse]
    by_contra hlen
    have h10 : 10 ≤ (Nat.digits 10 n).length := by omega
    have hpow := Nat.base_pow_length_digits_le 10 n (by norm_num) h0
    have : (10 : Nat) ^ 10 ≤ 10 ^ (Nat.digits 10 n).length :=
      Nat.pow_le_pow_right (by norm_num) h10
    omega

theorem itoa_mem_digit (n c : Nat) (hc : c ∈ itoa n) : 48 ≤ c ∧ c ≤ 57 := by
  by_cases h0 : n = 0
  · subst h0; simp [itoa] at hc; omega
  · rw [itoa_eq_digits n h0] at hc
    simp only [List.mem_map, List.mem_reverse] at hc
    obtain ⟨d, hd, rfl⟩ := hc
    have := Nat.digits_lt_base (by norm_num : 1 < 10) hd
    omega

theorem itoa_all_digits (n : Nat) : (itoa n).all isDigitByte = true := by
  rw [List.all_eq_true]
  intro c hc
  have := itoa_mem_digit n c hc
  simp [isDigitByte]
  omega

theorem digitsToNat_append (s : GoStr) (c : Nat) :
    digitsToNat (s ++ [c]) = 10 * digitsToNat s + (c - 48) := by
  simp [digitsToNat, List.foldl_append]

theorem digitsToNat_rev_digits (L : List Nat) (hL : ∀ d ∈ L, d < 10) :
    digitsToNat (L.reverse.map (fun d => 48 + d)) = Nat.ofDigits 10 L := by
  induction L with
  | nil => simp [digitsToNat]
  | cons d L ih =>
    have hrest : ∀ x ∈ L, x < 10 := fun x hx => hL x (List.mem_cons_of_mem d hx)
    rw [List.reverse_cons, List.map_append, List.map_singleton, digitsToNat_append,
      ih hrest, Nat.ofDigits_cons]
    omega

theorem digitsToNat_itoa (n : Nat) : digitsToNat (itoa n) = n := by
  by_cases h0 : n = 0
  · subst h0; simp [itoa, digitsToNat]
  · rw [itoa_eq_digits n h0,
      digitsToNat_rev_digits _ (fun d hd => Nat.digits_lt_base (by norm_num) hd),
      Nat.ofDigits_digits]

theorem parseDigits_itoa (n : Nat) : parseDigits (itoa n) = some n := by
  rw [parseDigits, if_pos, digitsToNat_itoa]
  simp [itoa_ne_nil n, itoa_all_digits n]

theorem atoi_itoa (n : Nat) : atoi (itoa n) = some (n : Int) := by
  obtain ⟨c, cs, hcons⟩ := List.exists_cons_of_ne_nil (itoa_ne_nil n)
  have hc : 48 ≤ c ∧ c ≤ 57 := itoa_mem_digit n c (by rw [hcons]; exact List.mem_cons_self c cs)
  have h45 : c ≠ 45 := by omega
  have h43 : c ≠ 43 := by omega
  rw [hcons, atoi, if_neg h45, if_neg h43, ← hcons, parseDigits_itoa]
  rfl

theorem itoa_single_digit (d : Nat) (h1 : 1 ≤ d) (h9 : d ≤ 9) : itoa d = [48 + d] := by
  interval_cases d <;> rfl

/-! ## Slice lemmas -/

theorem goSlice_eq_some {s : GoStr} {lo hi : Int} (h0 : 0 ≤ lo) (h1 : lo ≤ hi)
    (h2 : hi ≤ (s.length : Int)) :
    goSlice s lo hi = some ((s.drop lo.toNat).take (hi - lo).toNat) := by
  rw [goSlice, if_pos ⟨h0, h1, h2⟩]

theorem goSlice_eq_none_of_lt {s : GoStr} {lo hi : Int} (h : hi < lo) :
    goSlice s lo hi = none := by
  rw [goSlice, if_neg]
  intro hcon
  omega

theorem goSliceFrom_eq_drop {s : GoStr} {lo : Int} (h0 : 0 ≤ lo)
    (h2 : lo ≤ (s.length : Int)) :
    goSliceFrom s lo = some (s.drop lo.toNat) := by
  rw [goSliceFrom, goSlice_eq_some h0 h2 le_rfl]
  congr 1
  apply List.take_of_length_le
  rw [List.length_drop]
  omega

theorem atoi_singleton {c : Nat} {k : Int} (h : atoi [c] = some k) :
    48 ≤ c ∧ c ≤ 57 ∧ k = ((c - 48 : Nat) : Int) := by
  rw [atoi] at h
  by_cases h45 : c = 45
  · rw [if_pos h45] at h
    simp [parseDigits] at h
  · rw [if_neg h45] at h
    by_cases h43 : c = 43
    · rw [if_pos h43] at h
      simp [parseDigits] at h
    · rw [if_neg h43, parseDigits] at h
      by_cases hdig : isDigitByte c
      · refine ⟨?_, ?_, ?_⟩
        · simp [isDigitByte] at hdig; omega
        · simp [isDigitByte] at hdig; omega
        · rw [if_pos (by simp [hdig])] at h
          simp [digitsToNat] at h
          omega
      · rw [if_neg (by simp [hdig])] at h
        simp at h

theorem goSlice_append {b t : GoStr} {lo hi : Int} (hhi : hi ≤ (b.length : Int)) :
    goSlice (b ++ t) lo hi = goSlice b lo hi := by
  have happ : ((b ++ t).length : Int) = (b.length : Int) + (t.length : Int) := by
    simp
  by_cases hc : 0 ≤ lo ∧ lo ≤ hi
  · obtain ⟨h0, h1⟩ := hc
    rw [goSlice_eq_some h0 h1 hhi, goSlice_eq_some h0 h1 (by omega)]
    have hdrop : (b ++ t).drop lo.toNat = b.drop lo.toNat ++ t :=
      List.drop_append_of_le_length (by omega)
    rw [hdrop, List.take_append_of_le_length]
    rw [List.length_drop]
    omega
  · rw [goSlice, goSlice, if_neg (by tauto), if_neg (by tauto)]

/-! ## Persistence of parse outcomes under buffer extension

Once `parseArgument` or `parseCommand` reaches a verdict other than
`incomplete` on a buffer, appending further bytes cannot change that
verdict (for a complete argument, only the unconsumed remainder grows).
This is the heart of the framing-independence property. -/

theorem parseArgument_append (b t : GoStr) (h : parseArgument b ≠ .incomplete) :
    parseArgument (b ++ t) =
      match parseArgument b with
      | .complete a r => .complete a (r ++ t)
      | other => other := by
  have hlen : (b ++ t).length = b.length + t.length := by simp
  by_cases h3 : b.length < 3
  · exact absurd (by simp [parseArgument, if_pos h3]) h
  have h3' : ¬ (b ++ t).length < 3 := by omega
  have hbl : (3 : Int) ≤ (b.length : Int) := by exact_mod_cast Nat.le_of_not_lt h3
  have hsl1 : goSlice b 0 1 = some (b.take 1) := by
    rw [goSlice_eq_some (by norm_num) (by norm_num) (by omega)]
    rfl
  have hsl1' : goSlice (b ++ t) 0 1 = some (b.take 1) := by
    rw [goSlice_append (by omega), hsl1]
  rcases hato : atoi (b.take 1) with _ | asl
  · -- part 1 is not a number: invalid on both buffers
    have hb : parseArgument b = .invalid := by
      simp only [parseArgument, if_neg h3, hsl1, hato]
    rw [hb]
    simp only [parseArgument, if_neg h3', hsl1', hato]
  · have hbne : b ≠ [] := by
      intro hcon
      rw [hcon] at h3
      simp at h3
    obtain ⟨c, rest, hcons⟩ := List.exists_cons_of_ne_nil hbne
    have htake1 : b.take 1 = [c] := by rw [hcons]; rfl
    obtain ⟨hc48, hc57, hasl⟩ := atoi_singleton (htake1 ▸ hato)
    have hasl0 : 0 ≤ asl := by omega
    by_cases hinc1 : (b.length : Int) < asl + 1
    · exact absurd (by simp only [parseArgument, if_neg h3, hsl1, hato, if_pos hinc1]) h
    have hinc1' : ¬ ((b ++ t).length : Int) < asl + 1 := by
      push_cast [hlen] at hinc1 ⊢
      omega
    have e2 : (asl + 1 - 1 : Int) = asl := by ring
    have hsl2 : goSlice b 1 (asl + 1) = some ((b.drop 1).take asl.toNat) := by
      rw [goSlice_eq_some (by norm_num) (by omega) (by omega), e2]
      rfl
    have hsl2' : goSlice (b ++ t) 1 (asl + 1) = some ((b.drop 1).take asl.toNat) := by
      rw [goSlice_append (by omega), hsl2]
    rcases hato2 : atoi ((b.drop 1).take asl.toNat) with _ | size
    · have hb : parseArgument b = .invalid := by
        simp only [parseArgument, if_neg h3, hsl1, hato, if_neg hinc1, hsl2, hato2]
      rw [hb]
      simp only [parseArgument, if_neg h3', hsl1', hato, if_neg hinc1', hsl2', hato2]
    · by_cases hinc2 : (b.length : Int) < size + asl + 1
      · exact absurd (by simp only [parseArgument, if_neg h3, hsl1, hato, if_neg hinc1,
          hsl2, hato2, if_pos hinc2]) h
      have hinc2' : ¬ ((b ++ t).length : Int) < size + asl + 1 := by
        push_cast [hlen] at hinc2 ⊢
        omega
      by_cases hneg : size < 0
      · -- negative declared size: the payload slice panics on both buffers
        have hnone : goSlice b (asl + 1) (asl + size + 1) = none :=
          goSlice_eq_none_of_lt (by omega)
        have hnone' : goSlice (b ++ t) (asl + 1) (asl + size + 1) = none :=
          goSlice_eq_none_of_lt (by omega)
        have hb : parseArgument b = .panics := by
          simp only [parseArgument, if_neg h3, hsl1, hato, if_neg hinc1, hsl2, hato2,
            if_neg hinc2, hnone]
        rw [hb]
        simp only [parseArgument, if_neg h3', hsl1', hato, if_neg hinc1', hsl2', hato2,
          if_neg hinc2', hnone']
      · have hsz0 : 0 ≤ size := by omega
        have hsl3 : goSlice b (asl + 1) (asl + size + 1) =
            some ((b.drop (asl + 1).toNat).take ((asl + size + 1) - (asl + 1)).toNat) := by
          rw [goSlice_eq_some (by omega) (by omega) (by omega)]
        have hsl3' : goSlice (b ++ t) (asl + 1) (asl + size + 1) =
            some ((b.drop (asl + 1).toNat).take ((asl + size + 1) - (asl + 1)).toNat) := by
          rw [goSlice_append (by omega), hsl3]
        have hsl4 : goSliceFrom b (asl + size + 1) =
            some (b.drop (asl + size + 1).toNat) := by
          rw [goSliceFrom_eq_drop (by omega) (by omega)]
        have hsl4' : goSliceFrom (b ++ t) (asl + size + 1) =
            some (b.drop (asl + size + 1).toNat ++ t) := by
          rw [goSliceFrom_eq_drop (by omega) (by push_cast [hlen]; omega)]
          rw [List.drop_append_of_le_length (by omega)]
        have hb : parseArgument b = .complete
            ((b.drop (asl + 1).toNat).take ((asl + size + 1) - (asl + 1)).toNat)
            (b.drop (asl + size + 1).toNat) := by
          simp only [parseArgument, if_neg h3, hsl1, hato, if_neg hinc1, hsl2, hato2,
            if_neg hinc2, hsl3, hsl4]
        rw [hb]
        simp only [parseArgument, if_neg h3', hsl1', hato, if_neg hinc1', hsl2', hato2,
          if_neg hinc2', hsl3', hsl4']

theorem hasPrefix_length {s px : GoStr} (h : hasPrefix s px = true) : px.length ≤ s.length := by
  rw [hasPrefix, Bool.and_eq_true, decide_eq_true_eq] at h
  exact h.1

theorem hasPrefix_append {b t px : GoStr} (h : px.length ≤ b.length) :
    hasPrefix (b ++ t) px = hasPrefix b px := by
  have h2 : px.length ≤ (b ++ t).length := by
    rw [List.length_append]
    omega
  rw [hasPrefix, hasPrefix, List.take_append_of_le_length h, decide_eq_true h, decide_eq_true h2]

theorem parsePutCommand_append (b t : GoStr) (h3 : 3 ≤ b.length)
    (h : parsePutCommand b ≠ .incomplete) :
    parsePutCommand (b ++ t) = parsePutCommand b := by
  have e3 : ((3 : Int)).toNat = 3 := rfl
  have hsf : goSliceFrom b 3 = some (b.drop 3) := by
    rw [goSliceFrom_eq_drop (by norm_num) (by exact_mod_cast h3), e3]
  have hsf2 : goSliceFrom (b ++ t) 3 = some (b.drop 3 ++ t) := by
    rw [goSliceFrom_eq_drop (by norm_num) (by simp only [List.length_append]; push_cast; omega),
      e3, List.drop_append_of_le_length h3]
  cases ha1 : parseArgument (b.drop 3) with
  | complete a1 r =>
    have ha1b : parseArgument (b.drop 3 ++ t) = .complete a1 (r ++ t) := by
      rw [parseArgument_append _ t (by rw [ha1]; simp), ha1]
    cases ha2 : parseArgument r with
    | complete a2 r2 =>
      have ha2b : parseArgument (r ++ t) = .complete a2 (r2 ++ t) := by
        rw [parseArgument_append _ t (by rw [ha2]; simp), ha2]
      simp only [parsePutCommand, hsf, hsf2, ha1, ha1b, ha2, ha2b]
    | incomplete => exact absurd (by simp only [parsePutCommand, hsf, ha1, ha2]) h
    | invalid =>
      have ha2b : parseArgument (r ++ t) = .invalid := by
        rw [parseArgument_append _ t (by rw [ha2]; simp), ha2]
      simp only [parsePutCommand, hsf, hsf2, ha1, ha1b, ha2, ha2b]
    | panics =>
      have ha2b : parseArgument (r ++ t) = .panics := by
        rw [parseArgument_append _ t (by rw [ha2]; simp), ha2]
      simp only [parsePutCommand, hsf, hsf2, ha1, ha1b, ha2, ha2b]
  | incomplete => exact absurd (by simp only [parsePutCommand, hsf, ha1]) h
  | invalid =>
    have ha1b : parseArgument (b.drop 3 ++ t) = .invalid := by
      rw [parseArgument_append _ t (by rw [ha1]; simp), ha1]
    simp only [parsePutCommand, hsf, hsf2, ha1, ha1b]
  | panics =>
    have ha1b : parseArgument (b.drop 3 ++ t) = .panics := by
      rw [parseArgument_append _ t (by rw [ha1]; simp), ha1]
    simp only [parsePutCommand, hsf, hsf2, ha1, ha1b]

theorem parseDeleteCommand_append (b t : GoStr) (h3 : 3 ≤ b.length)
    (h : parseDeleteCommand b ≠ .incomplete) :
    parseDeleteCommand (b ++ t) = parseDeleteCommand b := by
  have e3 : ((3 : Int)).toNat = 3 := rfl
  have hsf : goSliceFrom b 3 = some (b.drop 3) := by
    rw [goSliceFrom_eq_drop (by norm_num) (by exact_mod_cast h3), e3]
  have hsf2 : goSliceFrom (b ++ t) 3 = some (b.drop 3 ++ t) := by
    rw [goSliceFrom_eq_drop (by norm_num) (by simp only [List.length_append]; push_cast; omega),
      e3, List.drop_append_of_le_length h3]
  cases ha1 : parseArgument (b.drop 3) with
  | complete a1 r =>
    have ha1b : parseArgument (b.drop 3 ++ t) = .complete a1 (r ++ t) := by
      rw [parseArgument_append _ t (by rw [ha1]; simp), ha1]
    simp only [parseDeleteCommand, hsf, hsf2, ha1, ha1b]
  | incomplete => exact absurd (by simp only [parseDeleteCommand, hsf, ha1]) h
  | invalid =>
    have ha1b : parseArgument (b.drop 3 ++ t) = .invalid := by
      rw [parseArgument_append _ t (by rw [ha1]; simp), ha1]
    simp only [parseDeleteCommand, hsf, hsf2, ha1, ha1b]
  | panics =>
    have ha1b : parseArgument (b.drop 3 ++ t) = .panics := by
      rw [parseArgument_append _ t (by rw [ha1]; simp), ha1]
    simp only [parseDeleteCommand, hsf, hsf2, ha1, ha1b]

theorem parseGetCommand_append (b t : GoStr) (h3 : 3 ≤ b.length)
    (h : parseGetCommand b ≠ .incomplete) :
    parseGetCommand (b ++ t) = parseGetCommand b := by
  have e3 : ((3 : Int)).toNat = 3 := rfl
  have hsf : goSliceFrom b 3 = some (b.drop 3) := by
    rw [goSliceFrom_eq_drop (by norm_num) (by exact_mod_cast h3), e3]
  have hsf2 : goSliceFrom (b ++ t) 3 = some (b.drop 3 ++ t) := by
    rw [goSliceFrom_eq_drop (by norm_num) (by simp only [List.length_append]; push_cast; omega),
      e3, List.drop_append_of_le_length h3]
  cases ha1 : parseArgument (b.drop 3) with
  | complete a1 r =>
    have ha1b : parseArgument (b.drop 3 ++ t) = .complete a1 (r ++ t) := by
      rw [parseArgument_append _ t (by rw [ha1]; simp), ha1]
    by_cases hr1 : r.length < 1
    · exact absurd (by simp only [parseGetCommand, hsf, ha1, if_pos hr1]) h
    have hr1b : ¬ (r ++ t).length < 1 := by
      rw [List.length_append]
      omega
    have hsr : goSlice r 0 1 = some (r.take 1) := by
      rw [goSlice_eq_some (by norm_num) (by norm_num) (by push_cast; omega)]
      rfl
    have hsrb : goSlice (r ++ t) 0 1 = some (r.take 1) := by
      rw [goSlice_append (by push_cast; omega), hsr]
    cases hvs : atoi (r.take 1) with
    | none =>
      simp only [parseGetCommand, hsf, hsf2, ha1, ha1b, if_neg hr1, if_neg hr1b,
        hsr, hsrb, hvs]
    | some vls =>
      have hrne : r ≠ [] := by
        intro hcon
        rw [hcon] at hr1
        simp at hr1
      obtain ⟨c2, rest2, hcons2⟩ := List.exists_cons_of_ne_nil hrne
      have htake1 : r.take 1 = [c2] := by rw [hcons2]; rfl
      obtain ⟨hc48, hc57, hvls⟩ := atoi_singleton (htake1 ▸ hvs)
      by_cases hv0 : vls = 0
      · simp only [parseGetCommand, hsf, hsf2, ha1, ha1b, if_neg hr1, if_neg hr1b,
          hsr, hsrb, hvs, if_pos hv0]
      · by_cases hlen2 : (r.length : Int) < vls + 1
        · exact absurd (by simp only [parseGetCommand, hsf, ha1, if_neg hr1, hsr, hvs,
            if_neg hv0, if_pos hlen2]) h
        have hlen2b : ¬ ((r ++ t).length : Int) < vls + 1 := by
          simp only [List.length_append]
          push_cast at hlen2 ⊢
          omega
        have e2 : (vls + 1 - 1 : Int) = vls := by ring
        have hsv : goSlice r 1 (vls + 1) = some ((r.drop 1).take vls.toNat) := by
          rw [goSlice_eq_some (by norm_num) (by omega) (by omega), e2]
          rfl
        have hsvb : goSlice (r ++ t) 1 (vls + 1) = some ((r.drop 1).take vls.toNat) := by
          rw [goSlice_append (by omega), hsv]
        cases hvl : atoi ((r.drop 1).take vls.toNat) with
        | none =>
          simp only [parseGetCommand, hsf, hsf2, ha1, ha1b, if_neg hr1, if_neg hr1b,
            hsr, hsrb, hvs, if_neg hv0, if_neg hlen2, if_neg hlen2b, hsv, hsvb, hvl]
        | some vl =>
          simp only [parseGetCommand, hsf, hsf2, ha1, ha1b, if_neg hr1, if_neg hr1b,
            hsr, hsrb, hvs, if_neg hv0, if_neg hlen2, if_neg hlen2b, hsv, hsvb, hvl]
  | incomplete => exact absurd (by simp only [parseGetCommand, hsf, ha1]) h
  | invalid =>
    have ha1b : parseArgument (b.drop 3 ++ t) = .invalid := by
      rw [parseArgument_append _ t (by rw [ha1]; simp), ha1]
    simp only [parseGetCommand, hsf, hsf2, ha1, ha1b]
  | panics =>
    have ha1b : parseArgument (b.drop 3 ++ t) = .panics := by
      rw [parseArgument_append _ t (by rw [ha1]; simp), ha1]
    simp only [parseGetCommand, hsf, hsf2, ha1, ha1b]

theorem parseCommand_append (b t : GoStr) (h : parseCommand b ≠ .incomplete) :
    parseCommand (b ++ t) = parseCommand b := by
  by_cases hb3 : b.length < 3
  · -- a buffer shorter than any keyword matches no keyword and is incomplete
    have hnp : ∀ px : GoStr, px.length = 3 → ¬ hasPrefix b px = true := by
      intro px hpx hcon
      have := hasPrefix_length hcon
      omega
    have hput := hnp (goStr "put") rfl
    have hget := hnp (goStr "get") rfl
    have hdel := hnp (goStr "del") rfl
    have hbye := hnp (goStr "bye") rfl
    exact absurd (by simp [parseCommand, hput, hget, hdel, hbye]; omega) h
  · have h3 : 3 ≤ b.length := by omega
    have hpa : ∀ px : GoStr, px.length = 3 → hasPrefix (b ++ t) px = hasPrefix b px := by
      intro px hpx
      exact hasPrefix_append (by omega)
    have hput2 := hpa (goStr "put") rfl
    have hget2 := hpa (goStr "get") rfl
    have hdel2 := hpa (goStr "del") rfl
    have hbye2 := hpa (goStr "bye") rfl
    by_cases hput : hasPrefix b (goStr "put") = true
    · have hsub : parsePutCommand b ≠ .incomplete := fun hcon =>
        h (by simp [parseCommand, hput, hcon])
      simp only [parseCommand, hput2, hput, if_pos]
      exact parsePutCommand_append b t h3 hsub
    · by_cases hget : hasPrefix b (goStr "get") = true
      · have hsub : parseGetCommand b ≠ .incomplete := fun hcon =>
          h (by simp [parseCommand, hput, hget, hcon])
        simp only [parseCommand, hput2, hget2, hput, hget, if_pos]
        simp only [Bool.false_eq_true, if_false]
        exact parseGetCommand_append b t h3 hsub
      · by_cases hdel : hasPrefix b (goStr "del") = true
        · have hsub : parseDeleteCommand b ≠ .incomplete := fun hcon =>
            h (by simp [parseCommand, hput, hget, hdel, hcon])
          simp only [parseCommand, hput2, hget2, hdel2, hput, hget, hdel, if_pos]
          simp only [Bool.false_eq_true, if_false]
          exact parseDeleteCommand_append b t h3 hsub
        · by_cases hbye : hasPrefix b (goStr "bye") = true
          · simp [parseCommand, hput2, hget2, hdel2, hbye2, hput, hget, hdel, hbye]
          · have hgt : b.length > 2 := by omega
            have hgt2 : (b ++ t).length > 2 := by
              rw [List.length_append]
              omega
            simp [parseCommand, hput2, hget2, hdel2, hbye2, hput, hget, hdel, hbye,
              hgt, hgt2]
            omega

/-! ## The round trip of `formatArgument` through `parseArgument` -/

/-- C1 (amended): for every byte string `x` with `1 ≤ len(x) ≤ 999999999`,
`parseArgument (formatArgument x)` returns the payload `x`, an empty
unconsumed remainder, and the complete outcome.  The empty string is
excluded: its encoding "10" is 2 bytes long and `parseArgument` declares
any buffer shorter than 3 bytes incomplete (see the counterexample).
Payloads of `10^9` bytes or more are excluded because their length field
has ten or more digits, whose digit count no longer fits the single
leading digit emitted by `formatArgument`. -/
theorem parseArgument_formatArgument (x : GoStr) (hx1 : 1 ≤ x.length)
    (hx9 : x.length ≤ 999999999) :
    parseArgument (formatArgument x) = .complete x [] := by
  have hd1 : 1 ≤ (itoa x.length).length := itoa_length_pos _
  have hd9 : (itoa x.length).length ≤ 9 := itoa_length_le_nine _ hx9
  set s : GoStr := itoa x.length with hs
  set d : Nat := s.length with hd
  have hfmt : formatArgument x = [48 + d] ++ (s ++ x) := by
    rw [formatArgument, itoa_single_digit d hd1 hd9, List.append_assoc]
  have hlen : (formatArgument x).length = 1 + d + x.length := by
    rw [hfmt]
    simp
    omega
  have c1 : ¬ ((formatArgument x).length < 3) := by omega
  have c2 : ¬ (((formatArgument x).length : Int) < (d : Int) + 1) := by
    rw [hlen]
    push_cast
    omega
  have c3 : ¬ (((formatArgument x).length : Int) < (x.length : Int) + (d : Int) + 1) := by
    rw [hlen]
    push_cast
    omega
  have hsl1 : goSlice (formatArgument x) 0 1 = some [48 + d] := by
    rw [goSlice_eq_some (by norm_num) (by norm_num) (by rw [hlen]; push_cast; omega)]
    rw [hfmt]
    rfl
  have hatoi1 : atoi [48 + d] = some (d : Int) := by
    rw [← itoa_single_digit d hd1 hd9]
    exact atoi_itoa d
  have hsl2 : goSlice (formatArgument x) 1 ((d : Int) + 1) = some s := by
    rw [goSlice_eq_some (by norm_num) (by push_cast; omega) (by rw [hlen]; push_cast; omega)]
    rw [hfmt]
    have hdrop : (([48 + d] ++ (s ++ x)).drop (1 : Int).toNat) = s ++ x := rfl
    rw [hdrop]
    have htn : ((d : Int) + 1 - 1).toNat = d := by omega
    rw [htn, hd, List.take_left]
  have hatoi2 : atoi s = some (x.length : Int) := by
    rw [hs]
    exact atoi_itoa x.length
  have hsl3 : goSlice (formatArgument x) ((d : Int) + 1) ((d : Int) + (x.length : Int) + 1)
      = some x := by
    rw [goSlice_eq_some (by push_cast; omega) (by push_cast; omega)
      (by rw [hlen]; push_cast; omega)]
    have htn1 : ((d : Int) + 1).toNat = d + 1 := by omega
    have htn2 : ((d : Int) + (x.length : Int) + 1 - ((d : Int) + 1)).toNat = x.length := by omega
    rw [htn1, htn2, hfmt, ← List.append_assoc]
    have hdl : (([48 + d] ++ s).length) = d + 1 := by
      simp
    rw [← hdl, List.drop_left, List.take_length]
  have hsl4 : goSliceFrom (formatArgument x) ((d : Int) + (x.length : Int) + 1) = some [] := by
    rw [goSliceFrom_eq_drop (by push_cast; omega) (by rw [hlen]; push_cast; omega)]
    have htn : ((d : Int) + (x.length : Int) + 1).toNat = (formatArgument x).length := by omega
    rw [htn, List.drop_length]
  simp only [parseArgument, if_neg c1, hsl1, hatoi1, if_neg c2, hsl2, hatoi2, if_neg c3,
    hsl3, hsl4]

/-! ## Store map frame lemmas -/

theorem goMapGet_insert_frame (data : StoreData) (k k2 v : GoStr) (h : k2 ≠ k) :
    goMapGet (goMapInsert data k v) k2 = goMapGet data k2 := by
  induction data with
  | nil =>
    simp only [goMapInsert, goMapGet, List.find?]
    rw [show (k == k2) = false by simp [Ne.symm h]]
  | cons p rest ih =>
    by_cases hp : p.1 = k
    · simp only [goMapInsert, if_pos hp, goMapGet, List.find?]
      rw [show (k == k2) = false by simp [Ne.symm h],
        show (p.1 == k2) = false by simp [hp, Ne.symm h]]
    · simp only [goMapInsert, if_neg hp, goMapGet, List.find?]
      cases hpk : p.1 == k2 with
      | true => rfl
      | false =>
        have := ih
        simp only [goMapGet] at this
        exact this

theorem goMapGet_delete_frame (data : StoreData) (k k2 : GoStr) (h : k2 ≠ k) :
    goMapGet (goMapDelete data k) k2 = goMapGet data k2 := by
  induction data with
  | nil => rfl
  | cons p rest ih =>
    by_cases hp : p.1 = k
    · simp only [goMapDelete, if_pos hp, goMapGet, List.find?]
      rw [show (p.1 == k2) = false by simp [hp, Ne.symm h]]
    · simp only [goMapDelete, if_neg hp, goMapGet, List.find?]
      cases hpk : p.1 == k2 with
      | true => rfl
      | false =>
        have := ih
        simp only [goMapGet] at this
        exact this

/-! ## Feeding a well-formed request byte by byte into the handler loop -/

theorem runConn_minimal_feed (store : StoreData) (c : commandRequest) (store2 : StoreData)
    (response : GoStr) (r : GoStr)
    (hc : parseCommand r = .complete c)
    (hmin : ∀ k, k < r.length → (parseCommand (r.take k)).isComplete = false)
    (hd : localDispatch store c = some (store2, response))
    (hbye : response ≠ goStr "bye") (hne : response ≠ []) :
    ∀ todo done, done ++ todo = r → todo ≠ [] →
      runConn ⟨done, store, false⟩ todo = some (⟨[], store2, false⟩, [response]) := by
  intro todo
  induction todo with
  | nil => intro done hsplit hcon; exact absurd rfl hcon
  | cons x xs ih =>
    intro done hsplit hcon
    by_cases hxs : xs = []
    · subst hxs
      have hfull : done ++ [x] = r := by
        rw [← hsplit]
      have hstep : connStep ⟨done, store, false⟩ x =
          some (⟨[], store2, false⟩, some response) := by
        simp only [connStep, hfull, hc, hd, if_neg hbye, if_neg hne]
      simp only [runConn, Bool.false_eq_true, if_false, hstep]
      rfl
    · have hassoc : (done ++ [x]) ++ xs = r := by
        rw [← hsplit]
        simp
      have htake : r.take (done.length + 1) = done ++ [x] := by
        rw [← hassoc]
        have hl : (done ++ [x]).length = done.length + 1 := by simp
        rw [← hl, List.take_left]
      have hlt : done.length + 1 < r.length := by
        rw [← hassoc]
        simp
        have := List.length_pos.mpr hxs
        omega
      have hnotc : (parseCommand (done ++ [x])).isComplete = false := by
        have := hmin (done.length + 1) hlt
        rwa [htake] at this
      have hinc : parseCommand (done ++ [x]) = .incomplete := by
        cases hb : parseCommand (done ++ [x]) with
        | complete c2 => rw [hb] at hnotc; simp [CmdResult.isComplete] at hnotc
        | incomplete => rfl
        | invalid =>
          have hext := parseCommand_append (done ++ [x]) xs (by rw [hb]; simp)
          rw [hb, hassoc, hc] at hext
          cases hext
        | panics =>
          have hext := parseCommand_append (done ++ [x]) xs (by rw [hb]; simp)
          rw [hb, hassoc, hc] at hext
          cases hext
      have hstep : connStep ⟨done, store, false⟩ x =
          some (⟨done ++ [x], store, false⟩, none) := by
        simp only [connStep, hinc]
      simp only [runConn, Bool.false_eq_true, if_false, hstep]
      rw [ih (done ++ [x]) hassoc hxs]
      rfl

/-! ## Claim theorems -/

/-- C1 counterexample: the round trip law fails at the empty byte string.
`formatArgument []` is the two byte string "10", and `parseArgument`
declares any buffer shorter than 3 bytes incomplete, so the round trip
yields the incomplete outcome instead of `([], [], complete)`. -/
theorem roundtrip_empty_counterexample :
    formatArgument [] = goStr "10" ∧ parseArgument (formatArgument []) = .incomplete := by
  decide

/-- C1 witness: the round trip at the concrete payload "foo". -/
theorem parseArgument_formatArgument_witness :
    parseArgument (formatArgument (goStr "foo")) = .complete (goStr "foo") [] :=
  parseArgument_formatArgument (goStr "foo") (by decide) (by decide)

/-- C2: the spec case analysis does not match the code on buffers whose
declared length field parses as a negative integer.  On "2-1x" the
length field "-1" is parseable but negative; the spec case analysis
assigns `Invalid`, but the code computes the payload slice
`buffer[3:2]` whose bounds are reversed, which is a runtime panic. -/
theorem parseArgument_spec_divergence :
    atoi (goStr "-1") = some (-1) ∧ parseArgument (goStr "2-1x") = .panics := by
  decide

/-- C3 counterexample: the buffer "byeX" parses complete (bytes after a
complete command are ignored by `parseCommand`), and both halves of the
split "bye" / "X" are non-empty, yet the first half "bye" already parses
complete rather than incomplete, so the claim fails as stated for the
valid encoded request "byeX". -/
theorem framing_split_counterexample :
    parseCommand (goStr "bye" ++ goStr "X") = .complete ⟨.closeCommand, [], [], 0, []⟩ ∧
    goStr "bye" ≠ [] ∧ goStr "X" ≠ [] ∧
    parseCommand (goStr "bye") ≠ .incomplete := by
  decide

/-- C3 (amended): for every buffer `b1 ++ b2` that parses complete with
command `c` and none of whose proper prefixes parses complete (a valid
encoded request with no trailing bytes), and every split into non-empty
`b1` and `b2`, the first sub-buffer parses incomplete and the whole
buffer parses complete with the same `c`; parsing is a pure function of
the buffer, so determinism holds by construction. -/
theorem parseCommand_split_incomplete (b1 b2 : GoStr) (c : commandRequest)
    (hc : parseCommand (b1 ++ b2) = .complete c)
    (h1 : b1 ≠ []) (h2 : b2 ≠ [])
    (hmin : ∀ k, k < (b1 ++ b2).length →
      (parseCommand ((b1 ++ b2).take k)).isComplete = false) :
    parseCommand b1 = .incomplete ∧ parseCommand (b1 ++ b2) = .complete c := by
  refine ⟨?_, hc⟩
  have htake : (b1 ++ b2).take b1.length = b1 := List.take_left b1 b2
  have hlt : b1.length < (b1 ++ b2).length := by
    rw [List.length_append]
    have := List.length_pos.mpr h2
    omega
  have hnotc : (parseCommand b1).isComplete = false := by
    have := hmin b1.length hlt
    rwa [htake] at this
  cases hb : parseCommand b1 with
  | complete c2 => rw [hb] at hnotc; simp [CmdResult.isComplete] at hnotc
  | incomplete => rfl
  | invalid =>
    have hext := parseCommand_append b1 b2 (by rw [hb]; simp)
    rw [hb, hc] at hext
    cases hext
  | panics =>
    have hext := parseCommand_append b1 b2 (by rw [hb]; simp)
    rw [hb, hc] at hext
    cases hext

/-- C3 witness: splitting the encoded request "put11a13foo" after its
sixth byte yields incomplete then complete. -/
theorem parseCommand_split_incomplete_witness :
    parseCommand (goStr "put11a") = .incomplete ∧
    parseCommand (goStr "put11a" ++ goStr "13foo") =
      .complete ⟨.putCommand, goStr "a", goStr "foo", 0, []⟩ :=
  parseCommand_split_incomplete (goStr "put11a") (goStr "13foo")
    ⟨.putCommand, goStr "a", goStr "foo", 0, []⟩
    (by decide) (by decide) (by decide) (by decide)

/-- C4: the get command truncates exactly as claimed.  With value `v`
stored under the key: a requested maximum length `n` with `0 < n <
len(v)` answers "val" followed by the formatted first `n` bytes of `v`;
`n = 0` or `n ≥ len(v)` answers "val" followed by all of `v` formatted;
an absent key answers "nil". -/
theorem get_truncation (data : StoreData) (key2 : GoStr) (n : Int) (v : GoStr)
    (hn : 0 ≤ n) (hpres : goMapGet data key2 = (v, true)) :
    ((0 < n ∧ n < (v.length : Int)) →
      handleVariableLengthGet data ⟨.getCommand, key2, [], n, []⟩
        = some (goStr "val" ++ formatArgument (v.take n.toNat))) ∧
    ((n = 0 ∨ (v.length : Int) ≤ n) →
      handleVariableLengthGet data ⟨.getCommand, key2, [], n, []⟩
        = some (goStr "val" ++ formatArgument v)) ∧
    (∀ keyA : GoStr, (goMapGet data keyA).2 = false →
      handleVariableLengthGet data ⟨.getCommand, keyA, [], n, []⟩ = some (goStr "nil")) := by
  refine ⟨?_, ?_, ?_⟩
  · rintro ⟨hn1, hn2⟩
    have hcond : ¬ ((n : Int) = 0 ∨ ((v.length : Nat) : Int) < n) := by
      push_neg
      exact ⟨by omega, by omega⟩
    simp only [handleVariableLengthGet, hpres, Bool.true_eq_false, if_false, if_neg hcond]
    rw [goSlice_eq_some le_rfl hn (by omega)]
    simp
  · intro hcase
    rcases hcase with hn0 | hge
    · simp only [handleVariableLengthGet, hpres, Bool.true_eq_false, if_false]
      rw [if_pos (Or.inl hn0)]
    · rcases lt_or_eq_of_le hge with hgt | heq
      · simp only [handleVariableLengthGet, hpres, Bool.true_eq_false, if_false]
        rw [if_pos (Or.inr hgt)]
      · by_cases hn0 : n = 0
        · simp only [handleVariableLengthGet, hpres, Bool.true_eq_false, if_false]
          rw [if_pos (Or.inl hn0)]
        · have hne0 : ¬ ((n : Int) = 0 ∨ ((v.length : Nat) : Int) < n) := by
            push_neg
            exact ⟨hn0, by omega⟩
          simp only [handleVariableLengthGet, hpres, Bool.true_eq_false, if_false,
            if_neg hne0]
          rw [goSlice_eq_some le_rfl hn (by omega)]
          have htn : (n - 0).toNat = v.length := by omega
          simp only [htn]
          rw [show ((0 : Int)).toNat = 0 from rfl, List.drop_zero, List.take_length]
          rfl
  · intro keyA habs
    cases hga : goMapGet data keyA with
    | mk value present =>
      rw [hga] at habs
      simp at habs
      simp only [handleVariableLengthGet, hga, habs, if_pos]

/-- C4 witness: the store holds "hello" under "k"; requesting 2 bytes
returns its first two bytes, requesting 0 or 9 bytes returns all of it,
and an absent key returns "nil". -/
theorem get_truncation_witness :
    handleVariableLengthGet [(goStr "k", goStr "hello")] ⟨.getCommand, goStr "k", [], 2, []⟩
      = some (goStr "val" ++ formatArgument ((goStr "hello").take ((2 : Int)).toNat)) ∧
    handleVariableLengthGet [(goStr "k", goStr "hello")] ⟨.getCommand, goStr "k", [], 9, []⟩
      = some (goStr "val" ++ formatArgument (goStr "hello")) ∧
    handleVariableLengthGet [(goStr "k", goStr "hello")] ⟨.getCommand, goStr "zz", [], 9, []⟩
      = some (goStr "nil") :=
  ⟨(get_truncation [(goStr "k", goStr "hello")] (goStr "k") 2 (goStr "hello")
      (by decide) (by decide)).1 (by decide),
   (get_truncation [(goStr "k", goStr "hello")] (goStr "k") 9 (goStr "hello")
      (by decide) (by decide)).2.1 (by decide),
   (get_truncation [(goStr "k", goStr "hello")] (goStr "k") 9 (goStr "hello")
      (by decide) (by decide)).2.2 (goStr "zz") (by decide)⟩

/-- C5: the fan-in loop of `performCommand` does not meet the claimed
500 ms deadline; it livelocks.  The loop calls `time.After` afresh in
every iteration and polls the new channel at once inside a `select` that
has a `default` case, so the timer case never fires (a schedule without
`timerReady`).  If at least one peer exists and no acknowledgement ever
arrives (no `ackReady`), then for every such finite schedule, of any
length, the loop is still spinning at its end, whether or not the
authoritative response arrived: the command never returns to the
client. -/
theorem fanInLoop_livelock (numPeers : Nat) (schedule : List FanInEvent) (response : GoStr)
    (hp : 1 ≤ numPeers)
    (ht : FanInEvent.timerReady ∉ schedule)
    (ha : FanInEvent.ackReady ∉ schedule) :
    fanInLoop numPeers schedule 0 response = none := by
  induction schedule generalizing response with
  | nil => rfl
  | cons event rest ih =>
    have ht2 : FanInEvent.timerReady ∉ rest := fun hm => ht (List.mem_cons_of_mem _ hm)
    have ha2 : FanInEvent.ackReady ∉ rest := fun hm => ha (List.mem_cons_of_mem _ hm)
    cases event with
    | ackReady => exact absurd (List.mem_cons_self _ _) ha
    | responseReady r =>
      simp only [fanInLoop]
      exact ih r ht2 ha2
    | timerReady => exact absurd (List.mem_cons_self _ _) ht
    | defaultStep =>
      simp only [fanInLoop, if_neg (by omega : ¬ (0 = numPeers ∧ response ≠ []))]
      exact ih response ht2 ha2

/-- C5 witness: one peer, a schedule in which the authoritative response
arrives but no acknowledgement and no timer event ever does: the loop
has not returned by the end of the schedule. -/
theorem fanInLoop_livelock_witness :
    fanInLoop 1 [.defaultStep, .responseReady (goStr "ack"), .defaultStep, .defaultStep] 0 []
      = none :=
  fanInLoop_livelock 1 [.defaultStep, .responseReady (goStr "ack"), .defaultStep, .defaultStep]
    [] (by decide) (by decide) (by decide)

/-- C6: a peer relay forwards a put or delete command by writing the
client's original encoded text verbatim and then reading exactly 3
acknowledgement bytes; it performs no network operation for get or
close; and in every case it signals exactly one completion on the shared
acknowledgement channel. -/
theorem relay_verbatim_forwarding (request : commandRequest) :
    ((request.command = .putCommand ∨ request.command = .deleteCommand) →
      (relayHandleRequest request).netOps =
        [NetOp.write request.originalText, NetOp.read 3]) ∧
    ((request.command = .getCommand ∨ request.command = .closeCommand) →
      (relayHandleRequest request).netOps = []) ∧
    (relayHandleRequest request).acksSignalled = 1 := by
  refine ⟨?_, ?_, rfl⟩
  · intro h
    simp [relayHandleRequest, h]
  · intro h
    have hno : ¬ (request.command = .putCommand ∨ request.command = .deleteCommand) := by
      rcases h with h | h <;> rw [h] <;> simp
    simp [relayHandleRequest, hno]

/-- C6 witness: the relay effect at a concrete put and a concrete get. -/
theorem relay_verbatim_forwarding_witness :
    (relayHandleRequest ⟨.putCommand, goStr "k", goStr "v", 0, goStr "put11k11v"⟩).netOps
      = [NetOp.write (goStr "put11k11v"), NetOp.read 3] ∧
    (relayHandleRequest ⟨.getCommand, goStr "k", [], 0, goStr "get11k0"⟩).netOps = [] :=
  ⟨(relay_verbatim_forwarding ⟨.putCommand, goStr "k", goStr "v", 0, goStr "put11k11v"⟩).1
      (Or.inl rfl),
   (relay_verbatim_forwarding ⟨.getCommand, goStr "k", [], 0, goStr "get11k0"⟩).2.1
      (Or.inl rfl)⟩

/-- C7 counterexample: processing a close operation sends no response
message at all (the `closeOperation` case of `handleStoreOperations`
returns from the goroutine without writing to any reply channel, and
`kvstore.Close` passes a nil reply channel), so the close operation does
not return an acknowledgement to its caller. -/
theorem store_close_counterexample :
    (handleStoreOperation (.running []) ⟨.closeOperation, [], []⟩).2 = none ∧
    (handleStoreOperation (.running []) ⟨.closeOperation, [], []⟩).1 = .stopped := by
  decide

/-- C7 (amended): processing a close operation sends no acknowledgement
back (fire and forget), and afterwards the actor is in the terminal
stopped state: no subsequent read, write or delete request is ever
serviced, for any caller and any sequence of later requests. -/
theorem store_close_stops_actor (data : StoreData) (requests : List operationRequest) :
    handleStoreOperation (.running data) ⟨.closeOperation, [], []⟩ = (.stopped, none) ∧
    storeActorRun .stopped requests = (.stopped, requests.map (fun _ => none)) := by
  refine ⟨rfl, ?_⟩
  induction requests with
  | nil => rfl
  | cons q rest ih =>
    simp only [storeActorRun, handleStoreOperation, ih, List.map_cons]

/-- C8: when the accumulated buffer parses invalid, the handler loop
writes the 3 byte response "err", discards the whole buffer and keeps
the connection open; and a well-formed request (no proper prefix of
which parses complete) subsequently fed from an empty buffer is parsed
and answered with its correct response. -/
theorem invalid_resets_buffer (buffer : GoStr) (b : Nat) (store storeB store2 : StoreData)
    (r : GoStr) (c : commandRequest) (response : GoStr)
    (hinv : parseCommand (buffer ++ [b]) = .invalid)
    (hc : parseCommand r = .complete c)
    (hmin : ∀ k, k < r.length → (parseCommand (r.take k)).isComplete = false)
    (hd : localDispatch storeB c = some (store2, response))
    (hbye : response ≠ goStr "bye") (hne : response ≠ []) :
    connStep ⟨buffer, store, false⟩ b = some (⟨[], store, false⟩, some (goStr "err")) ∧
    runConn ⟨[], storeB, false⟩ r = some (⟨[], store2, false⟩, [response]) := by
  constructor
  · simp only [connStep, hinv]
  · have hrne : r ≠ [] := by
      intro hcon
      rw [hcon] at hc
      have hnil : parseCommand ([] : GoStr) = .incomplete := by decide
      rw [hnil] at hc
      cases hc
    exact runConn_minimal_feed storeB c store2 response r hc hmin hd hbye hne r [] rfl hrne

/-- C8 witness: the buffer "xy" extended with the byte for the letter z
is the unrecognisable "xyz"; the handler answers "err", wipes the
buffer, stays open, and the following request "get11a0" on an empty
store is answered "nil". -/
theorem invalid_resets_buffer_witness :
    connStep ⟨goStr "xy", [], false⟩ 122 = some (⟨[], [], false⟩, some (goStr "err")) ∧
    runConn ⟨[], [], false⟩ (goStr "get11a0") = some (⟨[], [], false⟩, [goStr "nil"]) :=
  invalid_resets_buffer (goStr "xy") 122 [] [] [] (goStr "get11a0")
    ⟨.getCommand, goStr "a", [], 0, []⟩ (goStr "nil")
    (by decide) (by decide) (by decide) (by decide) (by decide) (by decide)

/-- C9: the parser is not panic free.  On the argument buffer "2-5xx"
the declared length field "-5" parses as a negative integer, the
resulting payload slice bounds are reversed and the code panics; the
panic is reachable from `parseCommand` (for example through a delete
command), and `handleVariableLengthGet` likewise panics on a negative
requested length reaching the slice `value[:n]`. -/
theorem parser_panics_on_negative_length :
    parseArgument (goStr "2-5xx") = .panics ∧
    parseCommand (goStr "del2-5xx") = .panics ∧
    handleVariableLengthGet [(goStr "a", goStr "hello")]
      ⟨.getCommand, goStr "a", [], -5, []⟩ = none := by
  decide

/-- C10: frame conditions of the store: writing or deleting a key leaves
the value and presence of every other key unchanged, and a read leaves
the whole store state unchanged. -/
theorem store_frame (data : StoreData) (k k2 v : GoStr) (h : k2 ≠ k) :
    goMapGet (goMapInsert data k v) k2 = goMapGet data k2 ∧
    goMapGet (goMapDelete data k) k2 = goMapGet data k2 ∧
    (handleStoreOperation (.running data) ⟨.readOperation, k, []⟩).1 = .running data :=
  ⟨goMapGet_insert_frame data k k2 v h, goMapGet_delete_frame data k k2 h, rfl⟩

/-- C10 witness: the frame conditions at a concrete store. -/
theorem store_frame_witness :
    goMapGet (goMapInsert [(goStr "b", goStr "1")] (goStr "a") (goStr "2")) (goStr "b")
      = goMapGet [(goStr "b", goStr "1")] (goStr "b") ∧
    goMapGet (goMapDelete [(goStr "b", goStr "1")] (goStr "a")) (goStr "b")
      = goMapGet [(goStr "b", goStr "1")] (goStr "b") ∧
    (handleStoreOperation (.running [(goStr "b", goStr "1")])
      ⟨.readOperation, goStr "a", []⟩).1 = .running [(goStr "b", goStr "1")] :=
  store_frame [(goStr "b", goStr "1")] (goStr "a") (goStr "b") (goStr "2") (by decide)

end TcpKv
